import Mathlib

/-!
Shallow embedding of the lingo-cipher Go program (src/main.go and the
unnamed second source file src/unnamed/part_000) and proofs about it.

Strings are modelled as `List Char` (Go iterates keys and words rune by
rune; all inputs of interest are sequences of runes).  Go `map[rune]rune`
values are modelled as association lists built positionally exactly as the
source builds its maps; a lookup of an absent key yields the zero value of
`rune`, i.e. the character with code point 0, exactly as in Go.
Runtime panics of the Go code (negative-length `make`, `strconv.FormatInt`
with a base outside 2..36, and the out-of-range `letters[i]` index in
`CipherFromKey` when the key's byte length exceeds its rune count) are
modelled as `none` results.
-/

namespace LingoCipher

/-- Decidable equality for `Except`, so that concrete runs of the fallible
operations can be checked by `decide`. -/
instance exceptDecEq {ε α : Type} [DecidableEq ε] [DecidableEq α] :
    DecidableEq (Except ε α) := fun x y =>
  match x, y with
  | .ok a, .ok b =>
    if h : a = b then isTrue (by rw [h])
    else isFalse (by intro hh; cases hh; exact h rfl)
  | .error a, .error b =>
    if h : a = b then isTrue (by rw [h])
    else isFalse (by intro hh; cases hh; exact h rfl)
  | .ok _, .error _ => isFalse (by intro hh; cases hh)
  | .error _, .ok _ => isFalse (by intro hh; cases hh)

/-- The digit alphabet used by Go's `strconv` formatting and parsing:
value `d` is rendered as a character of "0123456789abcdefghijklmnopqrstuvwxyz". -/
def digitChar (d : Nat) : Char :=
  if d < 10 then Char.ofNat (48 + d) else Char.ofNat (87 + d)

/-- The digit value Go's `strconv.ParseInt` assigns to a character:
decimal digits, then lowercase and uppercase letters; `none` for any
other character (there is no underscore handling since the base is
never 0 in this program). -/
def digitVal? (c : Char) : Option Nat :=
  if 48 ≤ c.toNat ∧ c.toNat ≤ 57 then some (c.toNat - 48)
  else if 97 ≤ c.toNat ∧ c.toNat ≤ 122 then some (c.toNat - 87)
  else if 65 ≤ c.toNat ∧ c.toNat ≤ 90 then some (c.toNat - 55)
  else none

/-- Go map lookup, `m[k]`: the first binding for `k`, or the zero value of
`rune` (the NUL character) when the key is absent. -/
def mapGet (m : List (Char × Char)) (key : Char) : Char :=
  match m.find? (fun p => p.1 == key) with
  | some p => p.2
  | none => Char.ofNat 0

/-- Error kinds of the cipher constructor (the two `errors.New` messages of
`CipherFromKey` / `MakeNumbers` in the source). -/
inductive CipherError where
  | keyTooLong
  | duplicateKeyLetter
deriving DecidableEq

/-- `Cipher` of src/main.go: the two mirror maps and the base
(= the key length). -/
structure Cipher where
  letterToNumber : List (Char × Char)
  numberToLetter : List (Char × Char)
  base : Nat
deriving DecidableEq

/-- `MakeNumbers` of src/main.go: value symbols `'1'..'9'` then `'a'..`
for `l - 1` positions, with `'0'` prepended when `leading0` and appended
otherwise.  For `l = 0` the Go loop over `l - 1 = -1` runs zero times,
which coincides with `Nat` subtraction here. -/
def MakeNumbers (l : Nat) (leading0 : Bool) : Except CipherError (List Char) :=
  if 36 ≤ l then .error .keyTooLong
  else
    let lengthWithout0 := l - 1
    let numbers : List Char :=
      if lengthWithout0 ≤ 8 then
        (List.range lengthWithout0).map (fun i => Char.ofNat (48 + i + 1))
      else
        (List.range 9).map (fun i => Char.ofNat (48 + i + 1)) ++
          (List.range (lengthWithout0 - 9)).map (fun i => Char.ofNat (97 + i))
    if leading0 then .ok (Char.ofNat 48 :: numbers)
    else .ok (numbers ++ [Char.ofNat 48])

/-- The sequence `MakeNumbers` produces, written uniformly through
`digitChar`: the symbols for values `1 .. l-1` with `'0'` first or last.
Used to reason about `MakeNumbers` in one shape. -/
def canonNumbers (l : Nat) (leading0 : Bool) : List Char :=
  if leading0 then Char.ofNat 48 :: (List.range (l - 1)).map (fun i => digitChar (i + 1))
  else (List.range (l - 1)).map (fun i => digitChar (i + 1)) ++ [Char.ofNat 48]

/-- The duplicate scan of `CipherFromKey`: walking the key, erroring at the
first letter already seen (`slices.Contains`). -/
def scanDup (seen : List Char) : List Char → Bool
  | [] => false
  | l :: rest => if l ∈ seen then true else scanDup (seen ++ [l]) rest

/-- Go's `len(k)` on the key string: its UTF-8 byte length (each rune
weighted by its encoded size), as opposed to the rune count `k.length`. -/
def byteLen (k : List Char) : Nat := (k.map Char.utf8Size).sum

/-- `CipherFromKey` of src/main.go: `length := len(k)` is the *byte*
length; the ≥ 36 guard, the `MakeNumbers` argument, the stored base and
the map-building loop bound all use it, while `letters` is filled by
*rune* iteration.  When the key contains a multi-byte rune,
`byteLen k > k.length` and the loop `for i := range length` indexes
`letters[i]` out of range — a runtime panic, modelled `none`.  When
`byteLen k = k.length` the positional loop builds exactly the zips
(`key[i] ↔ numbers[i]`). -/
def CipherFromKey (k : List Char) (leading0 : Bool) :
    Option (Except CipherError Cipher) :=
  if 36 ≤ byteLen k then some (.error .keyTooLong)
  else if scanDup [] k then some (.error .duplicateKeyLetter)
  else
    match MakeNumbers (byteLen k) leading0 with
    | .error e => some (.error e)
    | .ok numbers =>
      if byteLen k = k.length then
        some (.ok ⟨k.zip numbers, numbers.zip k, byteLen k⟩)
      else none

/-- `Cipher.FromLetters`: map each letter through `letterToNumber`
(absent letters become the zero rune, as in Go). -/
def Cipher.FromLetters (c : Cipher) (letters : List Char) : List Char :=
  letters.map (mapGet c.letterToNumber)

/-- `Cipher.FromNumbers`: map each value symbol through `numberToLetter`
(absent symbols become the zero rune, as in Go). -/
def Cipher.FromNumbers (c : Cipher) (numbers : List Char) : List Char :=
  numbers.map (mapGet c.numberToLetter)

/-- Tail of Go's `strconv.FormatInt` digit loop, with explicit fuel
(the loop divides `n` by `b` until `n < b`, emitting digits least
significant first; fuel `n + 1` always suffices for `b ≥ 2`). -/
def formatNatAux (b : Nat) : Nat → Nat → List Char → List Char
  | 0, _, acc => acc
  | fuel + 1, n, acc =>
    if n < b then digitChar n :: acc
    else formatNatAux b fuel (n / b) (digitChar (n % b) :: acc)

/-- `strconv.FormatInt` for a nonnegative value: most significant digit
first, `"0"` for zero. -/
def formatNat (b n : Nat) : List Char := formatNatAux b (n + 1) n []

/-- `Word` of the source: a value's representation in cipher symbols and
its decoded letter form. -/
structure Word where
  numbers : List Char
  letters : List Char
deriving DecidableEq

/-- `Triplet` of the source: `(addend1, addend2, sum)`. -/
abbrev Triplet := Word × Word × Word

/-- `WordList`: the set of dictionary words, as a list membership oracle
(Go uses `map[string]struct{}`). -/
abbrev WordList := List (List Char)

/-- `IsValidWord` of the source: dictionary membership. -/
def IsValidWord (w : List Char) (wl : WordList) : Bool := w ∈ wl

/-- The `Word` the enumeration builds for integer `v`: its base
representation and the decoding of that representation. -/
def wordOf (c : Cipher) (v : Nat) : Word :=
  ⟨formatNat c.base v, c.FromNumbers (formatNat c.base v)⟩

/-- `Cipher.fromInt` of the source: `strconv.Itoa` when `base = 10`
(identical to `FormatInt` in base 10), otherwise `strconv.FormatInt`,
which panics (`none`) for a base outside `2..36`. -/
def Cipher.fromInt (c : Cipher) (v : Nat) : Option Word :=
  if c.base = 10 then some (wordOf c v)
  else if 2 ≤ c.base ∧ c.base ≤ 36 then some (wordOf c v)
  else none

/-- The validity scan of `FindValidSums`: `fromInt` each `k` of the range,
`none` (panic) as soon as one conversion panics. -/
def computeWords (c : Cipher) : List Nat → Option (List Word)
  | [] => some []
  | k :: rest =>
    match c.fromInt k, computeWords c rest with
    | some w, some ws => some (w :: ws)
    | _, _ => none

/-- Whether integer `k` decodes to a dictionary word. -/
def validNum (c : Cipher) (wl : WordList) (k : Nat) : Bool :=
  IsValidWord (wordOf c k).letters wl

/-- Inner loop of `FindValidSums` (src/main.go): over the ascending valid
numbers, `continue` while `j < i`, `break` at `j ≥ maxSum/2`, emit the
triplet when `i + j` is valid.  `isV` is the `isValid` array (false out of
bounds; in-bounds indexing is established in the membership lemma), `info`
the `validInfo` array. -/
def innerLoop (isV : Nat → Bool) (info : Nat → Word) (maxNumber i : Nat) :
    List Nat → List Triplet
  | [] => []
  | j :: rest =>
    if j < i then innerLoop isV info maxNumber i rest
    else if maxNumber ≤ j then []
    else
      (if isV (i + j) then [(info i, info j, info (i + j))] else []) ++
        innerLoop isV info maxNumber i rest

/-- Outer loop of `FindValidSums` (src/main.go): over the ascending valid
numbers, `break` at `i ≥ maxSum/2`, run the inner loop for each kept `i`. -/
def outerLoop (isV : Nat → Bool) (info : Nat → Word) (maxNumber : Nat)
    (vns : List Nat) : List Nat → List Triplet
  | [] => []
  | i :: rest =>
    if maxNumber ≤ i then []
    else innerLoop isV info maxNumber i vns ++ outerLoop isV info maxNumber vns rest

/-- `Cipher.FindValidSums` of src/main.go, its observable behaviour being
the ordered sequence of `Triplet`s passed to the `action` callback.
`none` models the runtime panics: `make([]Word, maxSum)` with negative
`maxSum`, and `strconv.FormatInt` with the cipher's base outside `2..36`
during the validity scan. -/
def Cipher.FindValidSums (c : Cipher) (maxSum : Int) (wl : WordList) :
    Option (List Triplet) :=
  if maxSum < 0 then none
  else
    let m := maxSum.toNat
    match computeWords c (List.range m) with
    | none => none
    | some _ =>
      let isV : Nat → Bool := fun k => decide (k < m) && validNum c wl k
      let info : Nat → Word := fun k => wordOf c k
      let validNumbers := (List.range m).filter (fun k => validNum c wl k)
      some (outerLoop isV info (m / 2) validNumbers validNumbers)

/-- Inner loop of the slice-returning `FindValidSums` of
src/unnamed/part_000, accumulating `result = append(result, t)`. -/
def innerLoopSlice (isV : Nat → Bool) (info : Nat → Word) (maxNumber i : Nat) :
    List Nat → List Triplet → List Triplet
  | [], result => result
  | j :: rest, result =>
    if j < i then innerLoopSlice isV info maxNumber i rest result
    else if maxNumber ≤ j then result
    else if isV (i + j) then
      innerLoopSlice isV info maxNumber i rest (result ++ [(info i, info j, info (i + j))])
    else innerLoopSlice isV info maxNumber i rest result

/-- Outer loop of the slice-returning `FindValidSums` of
src/unnamed/part_000. -/
def outerLoopSlice (isV : Nat → Bool) (info : Nat → Word) (maxNumber : Nat)
    (vns : List Nat) : List Nat → List Triplet → List Triplet
  | [], result => result
  | i :: rest, result =>
    if maxNumber ≤ i then result
    else outerLoopSlice isV info maxNumber vns rest (innerLoopSlice isV info maxNumber i vns result)

/-- `Cipher.FindValidSums` of src/unnamed/part_000: same scan and loops,
but returning the accumulated `[]Triplet` slice. -/
def Cipher.FindValidSumsSlice (c : Cipher) (maxSum : Int) (wl : WordList) :
    Option (List Triplet) :=
  if maxSum < 0 then none
  else
    let m := maxSum.toNat
    match computeWords c (List.range m) with
    | none => none
    | some _ =>
      let isV : Nat → Bool := fun k => decide (k < m) && validNum c wl k
      let info : Nat → Word := fun k => wordOf c k
      let validNumbers := (List.range m).filter (fun k => validNum c wl k)
      some (outerLoopSlice isV info (m / 2) validNumbers validNumbers [])

/-- Error kind of the base-arithmetic helpers (`strconv` parse failures,
both syntax and 64-bit range errors, are surfaced as one error by
`BaseAdd`). -/
inductive NumError where
  | invalidNumeral
deriving DecidableEq

/-- Digit loop of `strconv.ParseUint`: fold the digits left to right,
rejecting a character without a digit value or with a value `≥ b`. -/
def parseDigitsNatAux (b acc : Nat) : List Char → Option Nat
  | [] => some acc
  | ch :: rest =>
    match digitVal? ch with
    | none => none
    | some d => if d < b then parseDigitsNatAux b (acc * b + d) rest else none

/-- The digits of a numeral as a `Nat` (empty input is a syntax error). -/
def parseDigitsNat (b : Nat) (s : List Char) : Option Nat :=
  if s = [] then none else parseDigitsNatAux b 0 s

/-- Sign-stripped tail of `strconv.ParseInt` with `bitSize` 64: parse the
digits, then check the signed 64-bit range (Go reports `ErrRange` exactly
when the magnitude exceeds `2^63 - 1`, or `2^63` for a negative input). -/
def parseAfterSign (neg : Bool) (digits : List Char) (b : Nat) :
    Except NumError Int :=
  match parseDigitsNat b digits with
  | none => .error .invalidNumeral
  | some v =>
    if neg then
      if (v : Int) ≤ 2 ^ 63 then .ok (-(v : Int)) else .error .invalidNumeral
    else
      if (v : Int) ≤ 2 ^ 63 - 1 then .ok (v : Int) else .error .invalidNumeral

/-- Sign handling of `strconv.ParseInt`: an optional leading `'+'` or
`'-'` before the digit string (empty input is a syntax error). -/
def parseSigned (b : Nat) : List Char → Except NumError Int
  | [] => .error .invalidNumeral
  | ch :: rest =>
    if ch = Char.ofNat 43 then parseAfterSign false rest b
    else if ch = Char.ofNat 45 then parseAfterSign true rest b
    else parseAfterSign false (ch :: rest) b

/-- `strconv.ParseInt(s, b, 64)` as used by `BaseAdd`: base must lie in
`2..36`, an optional leading sign, then a nonempty digit string in range. -/
def parseInt64 (s : List Char) (b : Nat) : Except NumError Int :=
  if b < 2 ∨ 36 < b then .error .invalidNumeral else parseSigned b s

/-- Two's-complement wraparound of Go's `int64` addition (`%` on `Int` is
`Int.emod`, nonnegative here, so this is the usual bias representation). -/
def wrapInt64 (v : Int) : Int := (v + 2 ^ 63) % 2 ^ 64 - 2 ^ 63

/-- `strconv.FormatInt` on an `int64` value: a minus sign and the
magnitude's digits for negative input. -/
def formatInt64 (v : Int) (b : Nat) : List Char :=
  if v < 0 then Char.ofNat 45 :: formatNat b (-v).toNat
  else formatNat b v.toNat

/-- `BaseAdd` of the source: parse both operands as `int64` in base `b`,
add with Go's wrapping `int64` arithmetic, and format the sum in base
`b`. -/
def BaseAdd (n1 n2 : List Char) (b : Nat) : Except NumError (List Char) :=
  match parseInt64 n1 b with
  | .error e => .error e
  | .ok v1 =>
    match parseInt64 n2 b with
    | .error e => .error e
    | .ok v2 => .ok (formatInt64 (wrapInt64 (v1 + v2)) b)

/-- The cipher `CipherFromKey` builds from the key `"ab"` with
`leading0 = false`: value sequence `['1','0']`. -/
def cipherAB : Cipher :=
  ⟨[(Char.ofNat 97, Char.ofNat 49), (Char.ofNat 98, Char.ofNat 48)],
   [(Char.ofNat 49, Char.ofNat 97), (Char.ofNat 48, Char.ofNat 98)], 2⟩

/-- The cipher `CipherFromKey` builds from the single-letter key `"a"`:
base 1, within which `strconv.FormatInt` panics. -/
def cipherA : Cipher :=
  ⟨[(Char.ofNat 97, Char.ofNat 48)], [(Char.ofNat 48, Char.ofNat 97)], 1⟩

/-- A small dictionary over the key `"ab"`, decoding the base-2 numerals
of 0, 1, 2 and 5. -/
def wlEx : WordList :=
  [String.toList "b", String.toList "a", String.toList "ab", String.toList "aba"]

/-- The triplets `FindValidSums` emits for `cipherAB`, `maxSum = 8` and
`wlEx` (computed by the embedding itself). -/
def resultAB8 : List Triplet := (cipherAB.FindValidSums 8 wlEx).getD []

/-! ### Helper lemmas about the cipher construction -/

lemma makeNumbers_eq_canon (l : Nat) (hl : l < 36) (flag : Bool) :
    MakeNumbers l flag = .ok (canonNumbers l flag) := by
  revert flag
  revert hl
  revert l
  decide

lemma canonNumbers_nodup (l : Nat) (hl : l < 36) (flag : Bool) :
    (canonNumbers l flag).Nodup := by
  revert flag; revert hl; revert l; decide

lemma canonNumbers_length (l : Nat) (hl : l < 36) (hl1 : 1 ≤ l) (flag : Bool) :
    (canonNumbers l flag).length = l := by
  revert flag; revert hl1; revert hl; revert l; decide

lemma canonNumbers_mem (l : Nat) (hl : l < 36) (d : Nat) (hd : d < l) (flag : Bool) :
    digitChar d ∈ canonNumbers l flag := by
  revert flag; revert hd; revert d; revert hl; revert l; decide

lemma digitVal_digitChar (d : Nat) (hd : d < 36) : digitVal? (digitChar d) = some d := by
  revert hd; revert d; decide

lemma digitChar_ne_plus_ne_minus (d : Nat) (hd : d < 36) :
    digitChar d ≠ Char.ofNat 43 ∧ digitChar d ≠ Char.ofNat 45 := by
  revert hd; revert d; decide

lemma scanDup_eq_false (l : List Char) : ∀ seen : List Char,
    (scanDup seen l = false ↔ l.Nodup ∧ ∀ x ∈ l, x ∉ seen) := by
  induction l with
  | nil => intro seen; simp [scanDup]
  | cons a rest ih =>
    intro seen
    by_cases h : a ∈ seen
    · rw [scanDup, if_pos h]
      constructor
      · intro hfalse; exact absurd hfalse (by simp)
      · rintro ⟨-, hall⟩; exact absurd h (hall a (by simp))
    · rw [scanDup, if_neg h, ih (seen ++ [a])]
      simp only [List.nodup_cons, List.mem_cons, List.mem_append, List.mem_singleton,
        List.not_mem_nil, or_false]
      constructor
      · rintro ⟨hnd, hall⟩
        refine ⟨⟨fun hmem => (hall a hmem) (Or.inr rfl), hnd⟩, ?_⟩
        rintro x (rfl | hx)
        · exact h
        · exact fun hs => (hall x hx) (Or.inl hs)
      · rintro ⟨⟨hnotin, hnd⟩, hall⟩
        refine ⟨hnd, fun x hx => ?_⟩
        rintro (hs | rfl)
        · exact (hall x (Or.inr hx)) hs
        · exact hnotin hx

lemma cipherFromKey_ok (k : List Char) (flag : Bool) (hascii : byteLen k = k.length)
    (hlen : k.length < 36) (hnd : k.Nodup) :
    CipherFromKey k flag =
      some (.ok ⟨k.zip (canonNumbers k.length flag),
           (canonNumbers k.length flag).zip k, k.length⟩) := by
  have hscan : scanDup [] k = false := (scanDup_eq_false k []).mpr ⟨hnd, by simp⟩
  rw [CipherFromKey, if_neg (by omega), hscan, hascii,
    makeNumbers_eq_canon k.length hlen flag]
  simp

lemma mapGet_zip (xs : List Char) : ∀ (ys : List Char), xs.Nodup →
    ∀ (i : Nat) (hx : i < xs.length) (hy : i < ys.length),
      mapGet (xs.zip ys) (xs.get ⟨i, hx⟩) = ys.get ⟨i, hy⟩ := by
  induction xs with
  | nil => intro ys _ i hx; simp at hx
  | cons x xs ih =>
    intro ys hnd i hx hy
    match ys, hy with
    | y :: ys, hy =>
      match i, hx with
      | 0, _ => simp [mapGet, List.find?]
      | i + 1, hx =>
        have hi : i < xs.length := by simpa using hx
        have hmem : xs.get ⟨i, hi⟩ ∈ xs := List.get_mem xs i hi
        have hne : (x == xs.get ⟨i, hi⟩) = false := by
          rw [beq_eq_false_iff_ne]
          intro he
          exact (List.nodup_cons.mp hnd).1 (he ▸ hmem)
        show mapGet ((x, y) :: xs.zip ys) ((x :: xs).get ⟨i + 1, hx⟩) = _
        have hget : (x :: xs).get ⟨i + 1, hx⟩ = xs.get ⟨i, hi⟩ := rfl
        rw [hget, mapGet, List.find?]
        simp only [hne]
        exact ih ys (List.nodup_cons.mp hnd).2 i hi (by simpa using hy)

/-- C3 counterexample: the key "éa" has two pairwise distinct symbols,
fewer than 36, yet `CipherFromKey` does not succeed: `len("éa")` is 3
bytes, so the map-building loop indexes `letters[2]` out of range and the
program panics (modelled `none`) instead of returning a cipher. -/
theorem cipher_roundtrip_C3_counterexample :
    ([Char.ofNat 233, Char.ofNat 97] : List Char).Nodup ∧
    ([Char.ofNat 233, Char.ofNat 97] : List Char).length < 36 ∧
    CipherFromKey [Char.ofNat 233, Char.ofNat 97] false = none :=
  ⟨by decide, by decide, by decide⟩

/-- C3 (amended to keys of single-byte runes, for which Go's byte length
`len(k)` equals the symbol count): for every such key with pairwise
distinct symbols and length below 36, cipher construction succeeds and
decoding the encoding of every key letter gives the letter back. -/
theorem cipher_roundtrip_C3 (k : List Char) (flag : Bool) (hnd : k.Nodup)
    (hascii : byteLen k = k.length) (hlen : k.length < 36) :
    ∃ c, CipherFromKey k flag = some (.ok c) ∧
      ∀ ch ∈ k, c.FromNumbers (c.FromLetters [ch]) = [ch] := by
  refine ⟨_, cipherFromKey_ok k flag hascii hlen hnd, ?_⟩
  intro ch hch
  have hl1 : 1 ≤ k.length := by
    cases k with
    | nil => simp at hch
    | cons a l => simp
  obtain ⟨⟨i, hi⟩, rfl⟩ := List.mem_iff_get.mp hch
  have hns : (canonNumbers k.length flag).length = k.length :=
    canonNumbers_length k.length hlen hl1 flag
  have hi' : i < (canonNumbers k.length flag).length := by omega
  show Cipher.FromNumbers _ (Cipher.FromLetters _ _) = _
  rw [Cipher.FromLetters, List.map_singleton]
  rw [mapGet_zip k (canonNumbers k.length flag) hnd i hi hi']
  rw [Cipher.FromNumbers, List.map_singleton]
  rw [mapGet_zip (canonNumbers k.length flag) k
    (canonNumbers_nodup k.length hlen flag) i hi' hi]

/-- Witness for C3 at the concrete key "ab". -/
theorem cipher_roundtrip_C3_witness :
    ∃ c, CipherFromKey (String.toList "ab") false = some (.ok c) ∧
      ∀ ch ∈ String.toList "ab", c.FromNumbers (c.FromLetters [ch]) = [ch] :=
  cipher_roundtrip_C3 (String.toList "ab") false (by decide) (by decide) (by decide)

/-- C4 counterexample: the length guard measures *bytes*, not symbols —
18 pairwise distinct two-byte runes (code points 192..209) total 36
bytes and fail with `keyTooLong` although the key has only 18 < 36
symbols and no repeat; and the duplicate-free two-symbol key "éa"
(3 bytes) neither succeeds nor returns an error — it panics (`none`). -/
theorem cipher_errors_C4_counterexample :
    ((List.range 18).map (fun i => Char.ofNat (192 + i))).Nodup ∧
    ((List.range 18).map (fun i => Char.ofNat (192 + i))).length = 18 ∧
    CipherFromKey ((List.range 18).map (fun i => Char.ofNat (192 + i))) false =
      some (.error .keyTooLong) ∧
    CipherFromKey [Char.ofNat 233, Char.ofNat 97] false = none :=
  ⟨by decide, by decide, by decide, by decide⟩

/-- C4 (amended to Go's byte-length semantics): `CipherFromKey` returns an
error exactly for a key of byte length ≥ 36 (with `keyTooLong`) or a
shorter key with a repeated rune (with `duplicateKeyLetter`); a shorter
duplicate-free key whose byte length exceeds its rune count (a multi-byte
rune present) neither succeeds nor errors — it panics in the map-building
loop (`none`). -/
theorem cipher_errors_C4 (k : List Char) (flag : Bool) :
    ((∃ e, CipherFromKey k flag = some (.error e)) ↔ 36 ≤ byteLen k ∨ ¬ k.Nodup) ∧
    (36 ≤ byteLen k → CipherFromKey k flag = some (.error .keyTooLong)) ∧
    (byteLen k < 36 → ¬ k.Nodup →
      CipherFromKey k flag = some (.error .duplicateKeyLetter)) ∧
    (byteLen k < 36 → k.Nodup → byteLen k ≠ k.length →
      CipherFromKey k flag = none) := by
  have hlong : 36 ≤ byteLen k → CipherFromKey k flag = some (.error .keyTooLong) := by
    intro h
    rw [CipherFromKey, if_pos h]
  have hdup : byteLen k < 36 → ¬ k.Nodup →
      CipherFromKey k flag = some (.error .duplicateKeyLetter) := by
    intro hlen hnd
    have hscan : scanDup [] k = true := by
      have : ¬ scanDup [] k = false := fun hf =>
        hnd ((scanDup_eq_false k []).mp hf).1
      exact Bool.not_eq_false (scanDup [] k) |>.mp this
    rw [CipherFromKey, if_neg (by omega), hscan]
    simp
  have hpanic : byteLen k < 36 → k.Nodup → byteLen k ≠ k.length →
      CipherFromKey k flag = none := by
    intro hlen hnd h3
    have hscan : scanDup [] k = false := (scanDup_eq_false k []).mpr ⟨hnd, by simp⟩
    rw [CipherFromKey, if_neg (by omega), hscan,
      makeNumbers_eq_canon (byteLen k) (by omega) flag]
    simp [h3]
  refine ⟨?_, hlong, hdup, hpanic⟩
  constructor
  · rintro ⟨e, he⟩
    by_cases h1 : 36 ≤ byteLen k
    · exact Or.inl h1
    · by_cases h2 : k.Nodup
      · exfalso
        by_cases h3 : byteLen k = k.length
        · rw [cipherFromKey_ok k flag h3 (by omega) h2] at he
          simp at he
        · rw [hpanic (by omega) h2 h3] at he
          cases he
      · exact Or.inr h2
  · rintro (h | h)
    · exact ⟨.keyTooLong, hlong h⟩
    · by_cases h1 : 36 ≤ byteLen k
      · exact ⟨.keyTooLong, hlong h1⟩
      · exact ⟨.duplicateKeyLetter, hdup (by omega) h⟩

/-- Witness for C4: a 36-byte all-ASCII key fails with `keyTooLong`, the
key "aa" fails with `duplicateKeyLetter`, and the duplicate-free
multi-byte key "éa" panics. -/
theorem cipher_errors_C4_witness :
    CipherFromKey (List.replicate 36 (Char.ofNat 97)) false =
      some (.error .keyTooLong) ∧
    CipherFromKey (String.toList "aa") false =
      some (.error .duplicateKeyLetter) ∧
    CipherFromKey [Char.ofNat 233, Char.ofNat 97] false = none :=
  ⟨(cipher_errors_C4 (List.replicate 36 (Char.ofNat 97)) false).2.1 (by decide),
   (cipher_errors_C4 (String.toList "aa") false).2.2.1 (by decide) (by decide),
   (cipher_errors_C4 [Char.ofNat 233, Char.ofNat 97] false).2.2.2
     (by decide) (by decide) (by decide)⟩

/-- C5 (amended): the conversions never fail; a symbol outside the
respective map's domain is translated to the zero rune (code point 0),
Go's zero value for an absent map key. -/
theorem unmapped_symbol_C5 (c : Cipher) (ch : Char) :
    ((∀ p ∈ c.letterToNumber, p.1 ≠ ch) → c.FromLetters [ch] = [Char.ofNat 0]) ∧
    ((∀ p ∈ c.numberToLetter, p.1 ≠ ch) → c.FromNumbers [ch] = [Char.ofNat 0]) := by
  constructor
  · intro h
    rw [Cipher.FromLetters, List.map_singleton, mapGet,
      List.find?_eq_none.mpr (fun p hp => by simpa using h p hp)]
  · intro h
    rw [Cipher.FromNumbers, List.map_singleton, mapGet,
      List.find?_eq_none.mpr (fun p hp => by simpa using h p hp)]

/-- C5 counterexample: for the cipher built from "ab", encoding the
out-of-domain letter "x" does not fail at all — it yields the NUL
character, so no `UnmappedSymbol` error exists in the code. -/
theorem unmapped_symbol_C5_counterexample :
    (∀ p ∈ cipherAB.letterToNumber, p.1 ≠ Char.ofNat 120) ∧
    cipherAB.FromLetters [Char.ofNat 120] = [Char.ofNat 0] := by
  constructor
  · decide
  · decide

/-- Witness for C5 at the concrete cipher from "ab" and symbol "x". -/
theorem unmapped_symbol_C5_witness :
    cipherAB.FromLetters [Char.ofNat 120] = [Char.ofNat 0] ∧
    cipherAB.FromNumbers [Char.ofNat 120] = [Char.ofNat 0] :=
  ⟨(unmapped_symbol_C5 cipherAB (Char.ofNat 120)).1 (by decide),
   (unmapped_symbol_C5 cipherAB (Char.ofNat 120)).2 (by decide)⟩

/-- C7 counterexample: `MakeNumbers 0 leading0` succeeds but returns one
symbol (the reserved `'0'`), not zero symbols as the claim's
"exactly `l` value-symbols" requires at `l = 0`. -/
theorem makeNumbers_C7_counterexample :
    MakeNumbers 0 false = .ok [Char.ofNat 48] ∧
    ([Char.ofNat 48] : List Char).length ≠ 0 := by
  constructor
  · decide
  · decide

/-- C7 (amended to `1 ≤ l`): `MakeNumbers l leading0` succeeds with exactly
`l` symbols — the `l - 1` symbols for values `1, 2, ...` in increasing
order (decimal digits then lowercase letters), with `'0'` first when
`leading0` and last otherwise. -/
theorem makeNumbers_C7 (l : Nat) (hl1 : 1 ≤ l) (hl : l < 36) (flag : Bool) :
    MakeNumbers l flag = .ok (canonNumbers l flag) ∧
    (canonNumbers l flag).length = l ∧
    canonNumbers l flag =
      (if flag then [Char.ofNat 48] else []) ++
        (List.range (l - 1)).map (fun i => digitChar (i + 1)) ++
        (if flag then [] else [Char.ofNat 48]) := by
  refine ⟨makeNumbers_eq_canon l hl flag, canonNumbers_length l hl hl1 flag, ?_⟩
  cases flag <;> simp [canonNumbers]

/-- Witness for C7 at `l = 12`, `leading0 = true`. -/
theorem makeNumbers_C7_witness :
    MakeNumbers 12 true = .ok (canonNumbers 12 true) ∧
    (canonNumbers 12 true).length = 12 :=
  ⟨(makeNumbers_C7 12 (by decide) (by decide) true).1,
   (makeNumbers_C7 12 (by decide) (by decide) true).2.1⟩

/-! ### Helper lemmas about base formatting and parsing -/

lemma formatNatAux_append (b : Nat) : ∀ (fuel n : Nat) (acc : List Char),
    formatNatAux b fuel n acc = formatNatAux b fuel n [] ++ acc := by
  intro fuel
  induction fuel with
  | zero => intro n acc; simp [formatNatAux]
  | succ fuel ih =>
    intro n acc
    rw [formatNatAux, formatNatAux]
    by_cases h : n < b
    · rw [if_pos h, if_pos h]; rfl
    · rw [if_neg h, if_neg h, ih (n / b), ih (n / b) [digitChar (n % b)]]
      simp

lemma formatNatAux_fuel (b : Nat) (hb : 2 ≤ b) : ∀ (n fuel fuel' : Nat) (acc : List Char),
    n < fuel → n < fuel' → formatNatAux b fuel n acc = formatNatAux b fuel' n acc := by
  intro n
  induction n using Nat.strong_induction_on with
  | _ n ih =>
    intro fuel fuel' acc hf hf'
    cases fuel with
    | zero => omega
    | succ f =>
      cases fuel' with
      | zero => omega
      | succ f' =>
        rw [formatNatAux, formatNatAux]
        by_cases h : n < b
        · rw [if_pos h, if_pos h]
        · rw [if_neg h, if_neg h]
          have hdiv : n / b < n := Nat.div_lt_self (by omega) (by omega)
          exact ih (n / b) hdiv f f' _ (by omega) (by omega)

lemma formatNat_eq (b : Nat) (hb : 2 ≤ b) (n : Nat) :
    formatNat b n = if n < b then [digitChar n]
      else formatNat b (n / b) ++ [digitChar (n % b)] := by
  rw [formatNat, formatNatAux]
  by_cases h : n < b
  · rw [if_pos h, if_pos h]
  · rw [if_neg h, if_neg h]
    have hdiv : n / b < n := Nat.div_lt_self (by omega) (by omega)
    rw [formatNatAux_fuel b hb (n / b) n (n / b + 1) _ (by omega) (by omega)]
    rw [formatNatAux_append b (n / b + 1) (n / b)]
    rfl

lemma formatNat_ne_nil (b : Nat) (hb : 2 ≤ b) (n : Nat) : formatNat b n ≠ [] := by
  rw [formatNat_eq b hb n]
  by_cases h : n < b
  · rw [if_pos h]; simp
  · rw [if_neg h]; simp

lemma formatNat_digits (b : Nat) (hb : 2 ≤ b) : ∀ n, ∀ ch ∈ formatNat b n,
    ∃ d, d < b ∧ ch = digitChar d := by
  intro n
  induction n using Nat.strong_induction_on with
  | _ n ih =>
    intro ch hch
    rw [formatNat_eq b hb n] at hch
    by_cases h : n < b
    · rw [if_pos h] at hch
      simp only [List.mem_singleton] at hch
      exact ⟨n, h, hch⟩
    · rw [if_neg h, List.mem_append] at hch
      rcases hch with hch | hch
      · exact ih (n / b) (Nat.div_lt_self (by omega) (by omega)) ch hch
      · simp only [List.mem_singleton] at hch
        exact ⟨n % b, Nat.mod_lt n (by omega), hch⟩

lemma parseDigitsNatAux_append (b : Nat) : ∀ (xs ys : List Char) (acc : Nat),
    parseDigitsNatAux b acc (xs ++ ys) =
      (parseDigitsNatAux b acc xs).bind (fun v => parseDigitsNatAux b v ys) := by
  intro xs
  induction xs with
  | nil => intro ys acc; simp [parseDigitsNatAux]
  | cons ch rest ih =>
    intro ys acc
    rw [List.cons_append, parseDigitsNatAux, parseDigitsNatAux]
    cases hd : digitVal? ch with
    | none => simp
    | some d =>
      by_cases h : d < b
      · simp only [if_pos h, Option.bind]
        exact ih ys _
      · simp [if_neg h]

lemma parse_formatNat (b : Nat) (hb : 2 ≤ b) (hb36 : b ≤ 36) : ∀ n,
    parseDigitsNat b (formatNat b n) = some n := by
  intro n
  induction n using Nat.strong_induction_on with
  | _ n ih =>
    by_cases h : n < b
    · rw [formatNat_eq b hb n, if_pos h, parseDigitsNat, if_neg (by simp)]
      simp [parseDigitsNatAux, digitVal_digitChar n (by omega), h]
    · have hdiv : n / b < n := Nat.div_lt_self (by omega) (by omega)
      have ihdiv := ih (n / b) hdiv
      rw [formatNat_eq b hb n, if_neg h, parseDigitsNat, if_neg (by simp)]
      rw [parseDigitsNatAux_append]
      rw [parseDigitsNat, if_neg (formatNat_ne_nil b hb (n / b))] at ihdiv
      rw [ihdiv]
      have hmod : n % b < b := Nat.mod_lt n (by omega)
      have hval : n / b * b + n % b = n := by
        rw [Nat.mul_comm]; exact Nat.div_add_mod n b
      simp [parseDigitsNatAux, digitVal_digitChar (n % b) (by omega), hmod, hval]

lemma wrapInt64_eq (v : Int) (h1 : -(2 ^ 63) ≤ v) (h2 : v ≤ 2 ^ 63 - 1) :
    wrapInt64 v = v := by
  rw [wrapInt64]
  have e63 : ((2 : Int) ^ 63) = 9223372036854775808 := by norm_num
  have e64 : ((2 : Int) ^ 64) = 18446744073709551616 := by norm_num
  rw [e63, e64] at *
  omega

lemma parseAfterSign_digits (b : Nat) (neg : Bool) (digits : List Char) (v : Nat)
    (h : parseDigitsNat b digits = some v) :
    parseAfterSign neg digits b =
      if neg then
        if (v : Int) ≤ 2 ^ 63 then .ok (-(v : Int)) else .error .invalidNumeral
      else
        if (v : Int) ≤ 2 ^ 63 - 1 then .ok (v : Int) else .error .invalidNumeral := by
  rw [parseAfterSign, h]

lemma parseInt64_formatInt64 (b : Nat) (hb : 2 ≤ b) (hb36 : b ≤ 36) (v : Int)
    (h1 : -(2 ^ 63) ≤ v) (h2 : v ≤ 2 ^ 63 - 1) :
    parseInt64 (formatInt64 v b) b = .ok v := by
  rw [formatInt64]
  by_cases hv : v < 0
  · rw [if_pos hv, parseInt64, if_neg (by omega), parseSigned]
    rw [if_neg (by decide), if_pos rfl]
    rw [parseAfterSign_digits b true (formatNat b (-v).toNat) (-v).toNat
      (parse_formatNat b hb hb36 (-v).toNat)]
    rw [if_pos (by simp), if_pos (by omega)]
    congr 1
    omega
  · rw [if_neg hv, parseInt64, if_neg (by omega)]
    obtain ⟨ch, rest, hs⟩ : ∃ ch rest, formatNat b v.toNat = ch :: rest := by
      cases hsf : formatNat b v.toNat with
      | nil => exact absurd hsf (formatNat_ne_nil b hb v.toNat)
      | cons a l => exact ⟨a, l, rfl⟩
    obtain ⟨d, hdb, hchd⟩ :=
      formatNat_digits b hb v.toNat ch (by rw [hs]; exact List.mem_cons_self ch rest)
    subst hchd
    rw [hs, parseSigned]
    have hsign := digitChar_ne_plus_ne_minus d (by omega)
    rw [if_neg hsign.1, if_neg hsign.2]
    have hparse : parseDigitsNat b (digitChar d :: rest) = some v.toNat := by
      rw [← hs]; exact parse_formatNat b hb hb36 v.toNat
    rw [parseAfterSign_digits b false (digitChar d :: rest) v.toNat hparse]
    rw [if_neg (by simp), if_pos (by omega)]
    congr 1
    omega

/-- C9 counterexample: `BaseAdd` parses through `int64`, so adding the
maximal 64-bit value to itself wraps around and yields `"-2"`, whose value
is not the exact sum; and a syntactically valid 20-digit base-10 numeral
already fails to parse (`ErrRange`). -/
theorem base_add_C9_counterexample :
    BaseAdd (String.toList "9223372036854775807")
        (String.toList "9223372036854775807") 10 = .ok (String.toList "-2") ∧
    parseInt64 (String.toList "-2") 10 = .ok (-2) ∧
    ((-2 : Int) ≠ 9223372036854775807 + 9223372036854775807) ∧
    parseInt64 (String.toList "9223372036854775807") 10 = .ok 9223372036854775807 ∧
    BaseAdd (String.toList "99999999999999999999") (String.toList "0") 10 =
      .error .invalidNumeral :=
  ⟨by decide, by decide, by decide, by decide, by decide⟩

/-- C9 (amended to operands and sum within `int64` range): for bases
`2..36`, `BaseAdd` of two numerals that parse to `v1` and `v2` succeeds
and its output parses back to exactly `v1 + v2`. -/
theorem base_add_C9 (b : Nat) (hb : 2 ≤ b) (hb36 : b ≤ 36) (n1 n2 : List Char)
    (v1 v2 : Int) (h1 : parseInt64 n1 b = .ok v1) (h2 : parseInt64 n2 b = .ok v2)
    (hlo : -(2 ^ 63) ≤ v1 + v2) (hhi : v1 + v2 ≤ 2 ^ 63 - 1) :
    BaseAdd n1 n2 b = .ok (formatInt64 (v1 + v2) b) ∧
    parseInt64 (formatInt64 (v1 + v2) b) b = .ok (v1 + v2) := by
  constructor
  · simp only [BaseAdd, h1, h2]
    rw [wrapInt64_eq (v1 + v2) hlo hhi]
  · exact parseInt64_formatInt64 b hb hb36 (v1 + v2) hlo hhi

/-- Witness for C9 at base 10 with "1" and "2". -/
theorem base_add_C9_witness :
    BaseAdd (String.toList "1") (String.toList "2") 10 = .ok (formatInt64 (1 + 2) 10) ∧
    parseInt64 (formatInt64 (1 + 2) 10) 10 = .ok (1 + 2) :=
  base_add_C9 10 (by decide) (by decide) (String.toList "1") (String.toList "2")
    1 2 (by decide) (by decide) (by decide) (by decide)

/-! ### Helper lemmas about the enumeration loops -/

lemma innerLoopSlice_eq (isV : Nat → Bool) (info : Nat → Word) (M i : Nat) :
    ∀ (l : List Nat) (result : List Triplet),
      innerLoopSlice isV info M i l result = result ++ innerLoop isV info M i l := by
  intro l
  induction l with
  | nil => intro result; simp [innerLoopSlice, innerLoop]
  | cons j rest ih =>
    intro result
    rw [innerLoopSlice, innerLoop]
    by_cases h1 : j < i
    · rw [if_pos h1, if_pos h1, ih]
    · rw [if_neg h1, if_neg h1]
      by_cases h2 : M ≤ j
      · rw [if_pos h2, if_pos h2]
        simp
      · rw [if_neg h2, if_neg h2]
        by_cases h3 : isV (i + j) = true
        · rw [if_pos h3, if_pos h3, ih]
          simp
        · rw [if_neg h3, if_neg h3, ih]
          simp

lemma outerLoopSlice_eq (isV : Nat → Bool) (info : Nat → Word) (M : Nat)
    (vns : List Nat) : ∀ (l : List Nat) (result : List Triplet),
      outerLoopSlice isV info M vns l result = result ++ outerLoop isV info M vns l := by
  intro l
  induction l with
  | nil => intro result; simp [outerLoopSlice, outerLoop]
  | cons i rest ih =>
    intro result
    rw [outerLoopSlice, outerLoop]
    by_cases h : M ≤ i
    · rw [if_pos h, if_pos h]
      simp
    · rw [if_neg h, if_neg h, ih, innerLoopSlice_eq]
      simp

/-- C10: the sequence of triplets the callback version of `FindValidSums`
(src/main.go) passes to its action equals, element for element and in
order, the slice the version in src/unnamed/part_000 returns — including
identical panic behaviour. -/
theorem find_valid_sums_equiv_C10 (c : Cipher) (maxSum : Int) (wl : WordList) :
    c.FindValidSums maxSum wl = c.FindValidSumsSlice maxSum wl := by
  simp only [Cipher.FindValidSums, Cipher.FindValidSumsSlice]
  by_cases h : maxSum < 0
  · rw [if_pos h, if_pos h]
  · rw [if_neg h, if_neg h]
    cases hc : computeWords c (List.range maxSum.toNat) with
    | none => rfl
    | some ws => simp [outerLoopSlice_eq]

lemma mem_innerLoop (isV : Nat → Bool) (info : Nat → Word) (M i : Nat) (t : Triplet) :
    ∀ l : List Nat, l.Pairwise (· < ·) →
      (t ∈ innerLoop isV info M i l ↔
        ∃ j, j ∈ l ∧ i ≤ j ∧ j < M ∧ isV (i + j) = true ∧
          t = (info i, info j, info (i + j))) := by
  intro l
  induction l with
  | nil => intro _; simp [innerLoop]
  | cons j rest ih =>
    intro hp
    obtain ⟨hj, hp'⟩ := List.pairwise_cons.mp hp
    rw [innerLoop]
    by_cases h1 : j < i
    · rw [if_pos h1, ih hp']
      constructor
      · rintro ⟨j', hj', hcond⟩
        exact ⟨j', List.mem_cons_of_mem _ hj', hcond⟩
      · rintro ⟨j', hj', hge, hcond⟩
        cases List.mem_cons.mp hj' with
        | inl he => omega
        | inr hm => exact ⟨j', hm, hge, hcond⟩
    · rw [if_neg h1]
      by_cases h2 : M ≤ j
      · rw [if_pos h2]
        constructor
        · intro ht
          simp at ht
        · rintro ⟨j', hj', hge, hlt, -, -⟩
          cases List.mem_cons.mp hj' with
          | inl he => omega
          | inr hm => have := hj j' hm; omega
      · rw [if_neg h2, List.mem_append, ih hp']
        constructor
        · rintro (hin | ⟨j', hj', hge, hlt, hv, ht⟩)
          · by_cases h3 : isV (i + j) = true
            · rw [if_pos h3] at hin
              simp only [List.mem_singleton] at hin
              exact ⟨j, List.mem_cons_self j rest, by omega, by omega, h3, hin⟩
            · rw [if_neg h3] at hin
              simp at hin
          · exact ⟨j', List.mem_cons_of_mem _ hj', hge, hlt, hv, ht⟩
        · rintro ⟨j', hj', hge, hlt, hv, ht⟩
          cases List.mem_cons.mp hj' with
          | inl he =>
            subst he
            left
            rw [if_pos hv]
            simp [ht]
          | inr hm => exact Or.inr ⟨j', hm, hge, hlt, hv, ht⟩

lemma mem_outerLoop (isV : Nat → Bool) (info : Nat → Word) (M : Nat)
    (vns : List Nat) (t : Triplet) : ∀ l : List Nat, l.Pairwise (· < ·) →
      (t ∈ outerLoop isV info M vns l ↔
        ∃ i, i ∈ l ∧ i < M ∧ t ∈ innerLoop isV info M i vns) := by
  intro l
  induction l with
  | nil => intro _; simp [outerLoop]
  | cons i rest ih =>
    intro hp
    obtain ⟨hi, hp'⟩ := List.pairwise_cons.mp hp
    rw [outerLoop]
    by_cases h : M ≤ i
    · rw [if_pos h]
      constructor
      · intro ht; simp at ht
      · rintro ⟨i', hi', hlt, -⟩
        cases List.mem_cons.mp hi' with
        | inl he => omega
        | inr hm => have := hi i' hm; omega
    · rw [if_neg h, List.mem_append, ih hp']
      constructor
      · rintro (hin | ⟨i', hi', hlt, hinn⟩)
        · exact ⟨i, List.mem_cons_self i rest, by omega, hin⟩
        · exact ⟨i', List.mem_cons_of_mem _ hi', hlt, hinn⟩
      · rintro ⟨i', hi', hlt, hinn⟩
        cases List.mem_cons.mp hi' with
        | inl he =>
          subst he
          exact Or.inl hinn
        | inr hm => exact Or.inr ⟨i', hm, hlt, hinn⟩

/-! ### Helper lemmas about the enumeration itself -/

lemma fromInt_eq_some (c : Cipher) (hb2 : 2 ≤ c.base) (hb36 : c.base ≤ 36) (v : Nat) :
    c.fromInt v = some (wordOf c v) := by
  rw [Cipher.fromInt]
  by_cases h : c.base = 10
  · rw [if_pos h]
  · rw [if_neg h, if_pos ⟨hb2, hb36⟩]

lemma fromInt_base (c : Cipher) (v : Nat) (w : Word) (h : c.fromInt v = some w) :
    2 ≤ c.base ∧ c.base ≤ 36 := by
  rw [Cipher.fromInt] at h
  by_cases h10 : c.base = 10
  · omega
  · rw [if_neg h10] at h
    by_cases hr : 2 ≤ c.base ∧ c.base ≤ 36
    · exact hr
    · rw [if_neg hr] at h
      cases h

lemma computeWords_some (c : Cipher) (hb2 : 2 ≤ c.base) (hb36 : c.base ≤ 36) :
    ∀ l : List Nat, computeWords c l = some (l.map (wordOf c)) := by
  intro l
  induction l with
  | nil => rfl
  | cons k rest ih =>
    rw [computeWords, fromInt_eq_some c hb2 hb36 k, ih]
    rfl

lemma computeWords_cons_base (c : Cipher) (k : Nat) (rest : List Nat) (ws : List Word)
    (h : computeWords c (k :: rest) = some ws) : 2 ≤ c.base ∧ c.base ≤ 36 := by
  rw [computeWords] at h
  cases hf : c.fromInt k with
  | none =>
    rw [hf] at h
    simp at h
  | some w => exact fromInt_base c k w hf

lemma cipherFromKey_ok_elim (k : List Char) (flag : Bool) (c : Cipher)
    (h : CipherFromKey k flag = some (.ok c)) :
    c = ⟨k.zip (canonNumbers k.length flag),
         (canonNumbers k.length flag).zip k, k.length⟩ ∧
    k.length < 36 ∧ k.Nodup ∧ byteLen k = k.length := by
  by_cases h1 : 36 ≤ byteLen k
  · rw [CipherFromKey, if_pos h1] at h
    simp at h
  · by_cases h2 : scanDup [] k = true
    · rw [CipherFromKey, if_neg h1, h2] at h
      simp at h
    · have h2' : scanDup [] k = false := by
        revert h2; cases scanDup [] k <;> simp
      have hnd := ((scanDup_eq_false k []).mp h2').1
      by_cases h3 : byteLen k = k.length
      · rw [cipherFromKey_ok k flag h3 (by omega) hnd] at h
        simp only [Option.some.injEq, Except.ok.injEq] at h
        exact ⟨h.symm, by omega, hnd, h3⟩
      · rw [CipherFromKey, if_neg h1, h2',
          makeNumbers_eq_canon (byteLen k) (by omega) flag] at h
        simp [h3] at h

lemma findValidSums_eq (c : Cipher) (hb2 : 2 ≤ c.base) (hb36 : c.base ≤ 36)
    (wl : WordList) (maxSum : Int) (h0 : 0 ≤ maxSum) :
    c.FindValidSums maxSum wl =
      some (outerLoop (fun k => decide (k < maxSum.toNat) && validNum c wl k)
        (fun k => wordOf c k) (maxSum.toNat / 2)
        ((List.range maxSum.toNat).filter (fun k => validNum c wl k))
        ((List.range maxSum.toNat).filter (fun k => validNum c wl k))) := by
  simp only [Cipher.FindValidSums, if_neg (by omega : ¬ maxSum < 0),
    computeWords_some c hb2 hb36]

lemma mem_findValidSums (c : Cipher) (wl : WordList) (maxSum : Int)
    (l : List Triplet) (hl : c.FindValidSums maxSum wl = some l) (t : Triplet) :
    t ∈ l ↔ ∃ i j : Nat, i ≤ j ∧ j < maxSum.toNat / 2 ∧ i + j < maxSum.toNat ∧
      validNum c wl i = true ∧ validNum c wl j = true ∧
      validNum c wl (i + j) = true ∧
      t = (wordOf c i, wordOf c j, wordOf c (i + j)) := by
  by_cases hneg : maxSum < 0
  · rw [Cipher.FindValidSums, if_pos hneg] at hl
    cases hl
  · simp only [Cipher.FindValidSums, if_neg hneg] at hl
    cases hc : computeWords c (List.range maxSum.toNat) with
    | none =>
      rw [hc] at hl
      simp at hl
    | some ws =>
      rw [hc] at hl
      simp only [Option.some.injEq] at hl
      subst hl
      have hsort : ((List.range maxSum.toNat).filter
          (fun k => validNum c wl k)).Pairwise (· < ·) :=
        List.Pairwise.sublist (List.filter_sublist _)
          (List.pairwise_lt_range maxSum.toNat)
      rw [mem_outerLoop _ _ _ _ t _ hsort]
      constructor
      · rintro ⟨i, hivns, hiM, hinn⟩
        obtain ⟨j, hjvns, hij, hjM, hV, ht⟩ :=
          (mem_innerLoop _ _ _ i t _ hsort).mp hinn
        obtain ⟨hir, hiv⟩ := List.mem_filter.mp hivns
        obtain ⟨hjr, hjv⟩ := List.mem_filter.mp hjvns
        simp only [Bool.and_eq_true, decide_eq_true_eq] at hV
        exact ⟨i, j, hij, hjM, hV.1, hiv, hjv, hV.2, ht⟩
      · rintro ⟨i, j, hij, hjM, hijm, hiv, hjv, hijv, ht⟩
        have him : i ∈ (List.range maxSum.toNat).filter (fun k => validNum c wl k) :=
          List.mem_filter.mpr ⟨List.mem_range.mpr (by omega), hiv⟩
        have hjm : j ∈ (List.range maxSum.toNat).filter (fun k => validNum c wl k) :=
          List.mem_filter.mpr ⟨List.mem_range.mpr (by omega), hjv⟩
        refine ⟨i, him, by omega, ?_⟩
        rw [mem_innerLoop _ _ _ i t _ hsort]
        refine ⟨j, hjm, hij, hjM, ?_, ht⟩
        simp only [Bool.and_eq_true, decide_eq_true_eq]
        exact ⟨hijm, hijv⟩

/-- C1 counterexample to universal quantification over all constructed
ciphers and all integer bounds: with a negative `maxSum` the code panics
at `make([]Word, maxSum)` (modelled `none`), and a successfully
constructed single-letter cipher (base 1) panics inside
`strconv.FormatInt` as soon as one integer is enumerated — in both cases
nothing is produced, although the claimed set of triplets is empty. -/
theorem find_valid_sums_C1_counterexample :
    CipherFromKey (String.toList "ab") false = some (.ok cipherAB) ∧
    cipherAB.FindValidSums (-1) wlEx = none ∧
    CipherFromKey (String.toList "a") false = some (.ok cipherA) ∧
    cipherA.FindValidSums 1 [] = none :=
  ⟨by decide, by decide, by decide, by decide⟩

/-- C1 (amended to keys of length ≥ 2 and `maxSum ≥ 0`, the inputs on
which the code does not panic): `FindValidSums` emits exactly the
triplets `(word i, word j, word (i+j))` with `i ≤ j`, `j < maxSum/2`, and
`i`, `j`, `i+j` all decoding to dictionary words (the sum `i + j` lying
below `maxSum`). -/
theorem find_valid_sums_C1 (k : List Char) (flag : Bool) (c : Cipher)
    (hok : CipherFromKey k flag = some (.ok c)) (hk2 : 2 ≤ k.length)
    (wl : WordList) (maxSum : Int) (h0 : 0 ≤ maxSum) :
    ∃ l, c.FindValidSums maxSum wl = some l ∧
      ∀ t : Triplet, t ∈ l ↔ ∃ i j : Nat, i ≤ j ∧ j < maxSum.toNat / 2 ∧
        i + j < maxSum.toNat ∧ validNum c wl i = true ∧ validNum c wl j = true ∧
        validNum c wl (i + j) = true ∧
        t = (wordOf c i, wordOf c j, wordOf c (i + j)) := by
  obtain ⟨hcEq, hlen, hnd, hascii⟩ := cipherFromKey_ok_elim k flag c hok
  have hbase : c.base = k.length := by rw [hcEq]
  have hb2 : 2 ≤ c.base := by omega
  have hb36 : c.base ≤ 36 := by omega
  exact ⟨_, findValidSums_eq c hb2 hb36 wl maxSum h0,
    mem_findValidSums c wl maxSum _ (findValidSums_eq c hb2 hb36 wl maxSum h0)⟩

/-- Witness for C1 at the cipher from "ab", `maxSum = 8` and the
four-word dictionary `wlEx`. -/
theorem find_valid_sums_C1_witness :
    ∃ l, cipherAB.FindValidSums 8 wlEx = some l ∧
      ∀ t : Triplet, t ∈ l ↔ ∃ i j : Nat, i ≤ j ∧ j < (8 : Int).toNat / 2 ∧
        i + j < (8 : Int).toNat ∧ validNum cipherAB wlEx i = true ∧
        validNum cipherAB wlEx j = true ∧
        validNum cipherAB wlEx (i + j) = true ∧
        t = (wordOf cipherAB i, wordOf cipherAB j, wordOf cipherAB (i + j)) :=
  find_valid_sums_C1 (String.toList "ab") false cipherAB (by decide) (by decide)
    wlEx 8 (by decide)

/-- C2 counterexample: `FindValidSums` with a negative bound does not
return an empty result — the Go code panics in `make([]Word, maxSum)`
(modelled `none`). -/
theorem find_valid_sums_C2_counterexample :
    cipherAB.FindValidSums (-1) [] = none ∧
    cipherAB.FindValidSums (-1) [] ≠ some [] :=
  ⟨by decide, by decide⟩

/-- C2 (amended): `maxSum = 0` yields an empty result and no failure for
every cipher and word list; every negative `maxSum` panics (`none`). -/
theorem find_valid_sums_zero_C2 (c : Cipher) (wl : WordList) :
    c.FindValidSums 0 wl = some [] ∧
    ∀ maxSum : Int, maxSum < 0 → c.FindValidSums maxSum wl = none := by
  constructor
  · rw [Cipher.FindValidSums, if_neg (by omega)]
    simp [computeWords, outerLoop]
  · intro maxSum h
    rw [Cipher.FindValidSums, if_pos h]

/-- Witness for C2 at the cipher from "ab" and `maxSum = -2`. -/
theorem find_valid_sums_zero_C2_witness :
    cipherAB.FindValidSums 0 [] = some [] ∧
    cipherAB.FindValidSums (-2) [] = none :=
  ⟨(find_valid_sums_zero_C2 cipherAB []).1,
   (find_valid_sums_zero_C2 cipherAB []).2 (-2) (by decide)⟩

lemma findValidSums_some_base (c : Cipher) (wl : WordList) (maxSum : Int)
    (l : List Triplet) (hl : c.FindValidSums maxSum wl = some l)
    (t : Triplet) (ht : t ∈ l) : 2 ≤ c.base ∧ c.base ≤ 36 ∧ 0 ≤ maxSum := by
  by_cases hneg : maxSum < 0
  · rw [Cipher.FindValidSums, if_pos hneg] at hl
    cases hl
  · simp only [Cipher.FindValidSums, if_neg hneg] at hl
    cases hc : computeWords c (List.range maxSum.toNat) with
    | none =>
      rw [hc] at hl
      simp at hl
    | some ws =>
      rw [hc] at hl
      simp only [Option.some.injEq] at hl
      subst hl
      have hsort : ((List.range maxSum.toNat).filter
          (fun k => validNum c wl k)).Pairwise (· < ·) :=
        List.Pairwise.sublist (List.filter_sublist _)
          (List.pairwise_lt_range maxSum.toNat)
      obtain ⟨i, hivns, -, -⟩ := (mem_outerLoop _ _ _ _ t _ hsort).mp ht
      have hir := (List.mem_filter.mp hivns).1
      cases hr : List.range maxSum.toNat with
      | nil =>
        rw [hr] at hir
        simp at hir
      | cons k rest =>
        rw [hr] at hc
        obtain ⟨hb2, hb36⟩ := computeWords_cons_base c k rest ws hc
        exact ⟨hb2, hb36, by omega⟩

/-- C6: every emitted triplet has both addend values strictly below
`maxSum/2` and the sum value strictly below `maxSum` (values read back
from the emitted representations in the cipher's base); and a pair whose
larger addend reaches `maxSum/2` is never emitted, whatever its sum.
Vacuously, a panicking run emits nothing.  For the `maxSum ≥ 0` runs that
return a list, `maxSum.toNat` and Go's `maxSum` as well as the `Nat` and
Go integer divisions by 2 coincide. -/
theorem bound_policy_C6 (c : Cipher) (maxSum : Int) (wl : WordList)
    (l : List Triplet) (hl : c.FindValidSums maxSum wl = some l) :
    (∀ t ∈ l, ∃ va vb vs : Nat,
      parseDigitsNat c.base t.1.numbers = some va ∧
      parseDigitsNat c.base t.2.1.numbers = some vb ∧
      parseDigitsNat c.base t.2.2.numbers = some vs ∧
      va ≤ vb ∧ va < maxSum.toNat / 2 ∧ vb < maxSum.toNat / 2 ∧
      va + vb = vs ∧ vs < maxSum.toNat) ∧
    (∀ i j : Nat, i ≤ j → maxSum.toNat / 2 ≤ j →
      (wordOf c i, wordOf c j, wordOf c (i + j)) ∉ l) := by
  constructor
  · intro t ht
    obtain ⟨hb2, hb36, h0⟩ := findValidSums_some_base c wl maxSum l hl t ht
    obtain ⟨i, j, hij, hjM, hsum, -, -, -, hteq⟩ :=
      (mem_findValidSums c wl maxSum l hl t).mp ht
    subst hteq
    exact ⟨i, j, i + j, parse_formatNat c.base hb2 hb36 i,
      parse_formatNat c.base hb2 hb36 j, parse_formatNat c.base hb2 hb36 (i + j),
      hij, by omega, hjM, rfl, by omega⟩
  · intro i j hij hge hmem
    obtain ⟨hb2, hb36, h0⟩ := findValidSums_some_base c wl maxSum l hl _ hmem
    obtain ⟨i', j', hij', hj'M, hsum', -, -, -, hteq⟩ :=
      (mem_findValidSums c wl maxSum l hl _).mp hmem
    have hn : (wordOf c j).numbers = (wordOf c j').numbers := by
      have := congrArg (fun p : Triplet => p.2.1.numbers) hteq
      simpa using this
    have hjj : j = j' := by
      have h1 := parse_formatNat c.base hb2 hb36 j
      have h2 := parse_formatNat c.base hb2 hb36 j'
      rw [show formatNat c.base j = formatNat c.base j' from hn] at h1
      exact Option.some.inj (h1.symm.trans h2)
    omega

/-- Witness for C6 at the nonempty run of `cipherAB` with `maxSum = 8`
over `wlEx`. -/
theorem bound_policy_C6_witness :
    (∀ t ∈ resultAB8, ∃ va vb vs : Nat,
      parseDigitsNat cipherAB.base t.1.numbers = some va ∧
      parseDigitsNat cipherAB.base t.2.1.numbers = some vb ∧
      parseDigitsNat cipherAB.base t.2.2.numbers = some vs ∧
      va ≤ vb ∧ va < (8 : Int).toNat / 2 ∧ vb < (8 : Int).toNat / 2 ∧
      va + vb = vs ∧ vs < (8 : Int).toNat) ∧
    (∀ i j : Nat, i ≤ j → (8 : Int).toNat / 2 ≤ j →
      (wordOf cipherAB i, wordOf cipherAB j, wordOf cipherAB (i + j)) ∉ resultAB8) :=
  bound_policy_C6 cipherAB 8 wlEx resultAB8 (by decide)

lemma exists_zip_pair (xs : List Char) : ∀ (ys : List Char) (a : Char),
    a ∈ xs → xs.length ≤ ys.length → ∃ b, (a, b) ∈ xs.zip ys := by
  induction xs with
  | nil => intro ys a ha; simp at ha
  | cons x xs ih =>
    intro ys a ha hlen
    cases ys with
    | nil => simp at hlen
    | cons y ys =>
      cases List.mem_cons.mp ha with
      | inl he =>
        subst he
        exact ⟨y, by rw [List.zip_cons_cons]; exact List.mem_cons_self _ _⟩
      | inr hm =>
        obtain ⟨b, hb⟩ := ih ys a hm (by simpa using hlen)
        exact ⟨b, by rw [List.zip_cons_cons]; exact List.mem_cons_of_mem _ hb⟩

/-- C8 counterexample: the single-letter key "a" constructs successfully
(base 1), but converting even the value 0 fails — `strconv.FormatInt`
panics for bases below 2 (modelled `none`) — so conversion does not
"never fail" for every successfully constructed cipher. -/
theorem from_int_defined_C8_counterexample :
    CipherFromKey (String.toList "a") false = some (.ok cipherA) ∧
    cipherA.fromInt 0 = none :=
  ⟨by decide, by decide⟩

/-- C8 (amended to keys of length ≥ 2): for every constructed cipher of
base ≥ 2 and every value, `fromInt` succeeds and each symbol of the
produced representation has an entry in the cipher's `numberToLetter`
map, so decoding is fully defined. -/
theorem from_int_defined_C8 (k : List Char) (flag : Bool) (c : Cipher)
    (hok : CipherFromKey k flag = some (.ok c)) (hk2 : 2 ≤ k.length) (v : Nat) :
    ∃ w, c.fromInt v = some w ∧
      ∀ ch ∈ w.numbers, ∃ p ∈ c.numberToLetter, p.1 = ch := by
  obtain ⟨hcEq, hlen, hnd, hascii⟩ := cipherFromKey_ok_elim k flag c hok
  have hbase : c.base = k.length := by rw [hcEq]
  have hb2 : 2 ≤ c.base := by omega
  have hb36 : c.base ≤ 36 := by omega
  refine ⟨wordOf c v, fromInt_eq_some c hb2 hb36 v, ?_⟩
  intro ch hch
  obtain ⟨d, hdb, rfl⟩ := formatNat_digits c.base hb2 v ch hch
  have hdl : d < k.length := by omega
  have hmem := canonNumbers_mem k.length hlen d hdl flag
  have hzl : (canonNumbers k.length flag).length ≤ k.length := by
    rw [canonNumbers_length k.length hlen (by omega) flag]
  obtain ⟨bch, hb⟩ :=
    exists_zip_pair (canonNumbers k.length flag) k (digitChar d) hmem hzl
  rw [hcEq]
  exact ⟨(digitChar d, bch), hb, rfl⟩

/-- Witness for C8 at the cipher from "ab" and value 5. -/
theorem from_int_defined_C8_witness :
    ∃ w, cipherAB.fromInt 5 = some w ∧
      ∀ ch ∈ w.numbers, ∃ p ∈ cipherAB.numberToLetter, p.1 = ch :=
  from_int_defined_C8 (String.toList "ab") false cipherAB (by decide) (by decide) 5

end LingoCipher
